import Mathlib

/-!
Verification of the Quantum-Multicast protocol orchestration and statistics
layer.  Definitions are shallow embeddings of the Python source:

* `gen_GHZ_ket`            — src/qmulticast/utils/functions.py, lines 28-41
* `npMean`, `diffs`, `meanDiff`, `rateStep`, `rateYields`
                           — src/qmulticast/utils/functions.py, lines 165-183
* `statsStepBip`, `statsStepMulti`, `runBip`
                           — src/qmulticast/utils/functions.py, lines 44-163
* `sourceMem`, `inputPorts`, `WaitExpr`, `sourceRound`, `receiverRound`
                           — src/qmulticast/protocols/bipartiteprotocol.py
* `WGraph`, `allocSlots`, `localWiring`, `deliveryWiring`
                           — src/qmulticast/utils/bipartite_network.py

Machine reals (numpy floats / simulated-clock readings) are modelled as
rationals `ℚ` except for the GHZ amplitudes, which involve `√2` and are
modelled over `ℝ`.
-/

/-- Embedding of `gen_GHZ_ket` (functions.py 28-41): `k = 2 ** n`;
a `k`-entry column vector, zero everywhere except entries `0` and `k - 1`
which are set to `1`; the whole vector is divided by `√2`.
The vector is modelled as its entry function `ℕ → ℝ` (the code stores
`complex` entries whose imaginary parts are always zero). -/
noncomputable def gen_GHZ_ket (n : ℕ) : ℕ → ℝ :=
  fun i => (if i = 0 ∨ i = 2 ^ n - 1 then (1 : ℝ) else 0) / Real.sqrt 2

/-- Squared norm of the vector returned by `gen_GHZ_ket n`: the sum of the
squares of its `2 ^ n` entries. -/
noncomputable def ghzNormSq (n : ℕ) : ℝ :=
  ∑ i in Finset.range (2 ^ n), (gen_GHZ_ket n i) ^ 2

/-- Embedding of `np.mean` as used at functions.py line 124: the sum of the collected
values divided by how many there are. -/
def npMean (l : List ℚ) : ℚ := l.sum / l.length

/-- Successive differences `vals[1:] - vals[0:-1]` (functions.py line 178). -/
def diffs : List ℚ → List ℚ
  | a :: b :: rest => (b - a) :: diffs (b :: rest)
  | _ => []

/-- Embedding of `np.mean(vals[1:] - vals[0:-1])` (functions.py line 178). -/
def meanDiff (l : List ℚ) : ℚ := npMean (diffs l)

/-- The update the spec prescribes for the running mean,
`mean = mean + (fidelity - mean) / run_count`, folded over a fidelity
history starting from mean `0` before any value has been seen. -/
def incMeanGo : ℚ → ℕ → List ℚ → ℚ
  | m, _, [] => m
  | m, k, f :: rest => incMeanGo (m + (f - m) / (k + 1)) (k + 1) rest

/-- The spec's incremental running mean of a fidelity history. -/
def incMean (l : List ℚ) : ℚ := incMeanGo 0 0 l

section MeanLemmas

lemma incMeanGo_eq (l : List ℚ) : ∀ (m : ℚ) (k : ℕ), 0 < k + l.length →
    incMeanGo m k l = ((k : ℚ) * m + l.sum) / (k + l.length) := by
  induction l with
  | nil =>
    intro m k hk
    have hk' : (k : ℚ) ≠ 0 := by
      simp only [List.length_nil, Nat.add_zero] at hk
      exact Nat.cast_ne_zero.mpr (by omega)
    simp [incMeanGo, hk']
  | cons f rest ih =>
    intro m k _
    have h1 : 0 < (k + 1) + rest.length := by omega
    rw [incMeanGo, ih _ (k + 1) h1]
    have hk1 : ((k : ℚ) + 1) ≠ 0 := by positivity
    have : ((k + 1 : ℕ) : ℚ) = (k : ℚ) + 1 := by push_cast; ring
    rw [this]
    rw [List.length_cons, List.sum_cons]
    have hlen : ((rest.length + 1 : ℕ) : ℚ) = (rest.length : ℚ) + 1 := by
      push_cast; ring
    push_cast
    congr 1
    · field_simp
      ring
    · ring

lemma incMean_eq_npMean (l : List ℚ) (h : l ≠ []) : incMean l = npMean l := by
  have hlen : 0 < l.length := List.length_pos.mpr h
  rw [incMean, incMeanGo_eq l 0 0 (by omega), npMean]
  push_cast
  simp

lemma npMean_append (l : List ℚ) (f : ℚ) (h : l ≠ []) :
    npMean (l ++ [f]) = npMean l + (f - npMean l) / (l.length + 1) := by
  have hlen : 0 < l.length := List.length_pos.mpr h
  have h0 : (l.length : ℚ) ≠ 0 := by positivity
  have h1 : (l.length : ℚ) + 1 ≠ 0 := by positivity
  rw [npMean, npMean, List.sum_append, List.length_append]
  simp only [List.sum_cons, List.sum_nil, List.length_cons, List.length_nil]
  push_cast
  field_simp
  ring

end MeanLemmas

/-! ## The `log_entanglement_rate` generator (functions.py 165-183)

In Python, calling a generator function does not run its body: the body of
`log_entanglement_rate` only starts at the first `next`, at which point it
records `sim_time` as the first element of `vals` and suspends at the bare
`yield` (yielding `None`).  Every later `next` appends the current
`sim_time` and yields the mean of all successive differences.
The generator state is the list `vals`; the empty list encodes
"body not yet started". -/

/-- One resumption of `log_entanglement_rate` at simulated time `t`:
returns the new `vals` and the value yielded (`none` for the very first
resumption, which stops at the bare `yield`). -/
def rateStep (vals : List ℚ) (t : ℚ) : List ℚ × Option ℚ :=
  match vals with
  | [] => ([t], none)
  | _ :: _ => (vals ++ [t], some (meanDiff (vals ++ [t])))

/-- The values yielded by `log_entanglement_rate` when it is resumed at the
given sequence of simulated times, starting from a freshly created
(not yet started) generator. -/
def rateYieldsAux : List ℚ → List ℚ → List (Option ℚ)
  | _, [] => []
  | vals, t :: rest =>
    (rateStep vals t).2 :: rateYieldsAux (rateStep vals t).1 rest

/-- Yield sequence of a fresh `log_entanglement_rate` generator resumed at
times `ts`. -/
def rateYields (ts : List ℚ) : List (Option ℚ) := rateYieldsAux [] ts

/-! ## The `fidelity_from_node` statistics generator (functions.py 44-163) -/

/-- The six-column row written by `csv.writer(...).writerow(data)` at
functions.py line 159-160:
`[run, mean_fidelity, loss_rate, min_time, mean_time, min_time/mean_time]`.
Fields that may still hold Python `None` are `Option ℚ`. -/
structure ResultRow where
  run : ℕ
  meanFid : Option ℚ
  lossRate : Option ℚ
  minTime : Option ℚ
  meanTime : Option ℚ
  rate : ℚ
deriving DecidableEq

/-- Python division `a / b` on two values that may each be `None`:
`None` operands raise `TypeError`, a zero divisor raises
`ZeroDivisionError`; otherwise the quotient is returned. -/
def pyDivOpt : Option ℚ → Option ℚ → Except String ℚ
  | some a, some b => if b = 0 then .error "ZeroDivisionError" else .ok (a / b)
  | _, _ => .error "TypeError"

/-- What the round logs about the entanglement rate
(functions.py lines 140-145): `mean_time == 0` logs the explicit
"entanglement rate infinite" diagnostic; otherwise, when both `min_time`
and `mean_time` are truthy (not `None` and nonzero), `min_time/mean_time`
is logged; otherwise nothing.  Skipped rounds log nothing. -/
inductive RateLog where
  | skip : RateLog
  | diag : RateLog
  | rate : ℚ → RateLog
deriving DecidableEq

/-- Python truthiness of an optional float: `None` and `0.0` are falsy. -/
def truthy : Option ℚ → Bool
  | none => false
  | some x => x != 0

/-- The rate logging of a counted round (functions.py 140-145). -/
def rateLogOf (minT meanT : Option ℚ) : RateLog :=
  if meanT = some 0 then .diag
  else if truthy minT && truthy meanT then
    .rate (minT.getD 0 / meanT.getD 0)
  else .skip

/-- The local variables of the `fidelity_from_node` generator that persist
across rounds (functions.py 67-72 plus the `log_entanglement_rate`
generator created at line 65). -/
@[ext]
structure StatState where
  run : ℕ
  lostQubits : ℕ
  vals : List ℚ
  meanFid : Option ℚ
  lossRate : Option ℚ
  minTime : Option ℚ
  rateVals : List ℚ
  meanTime : Option ℚ
deriving DecidableEq

/-- Initial state on entry to the round loop (functions.py 67-72). -/
def initStats : StatState :=
  { run := 0, lostQubits := 0, vals := [], meanFid := none, lossRate := none
    minTime := none, rateVals := [], meanTime := none }

/-- The `min_time` bookkeeping at the top of each round
(functions.py 74-78): the round entered with `run == 1` stores the current
simulated time; the round entered with `run == 2` replaces it by
`second_time - min_time`; later rounds leave it unchanged. -/
def minTimeUpd (run : ℕ) (prev : Option ℚ) (t : ℚ) : Option ℚ :=
  if run = 1 then some t
  else if run = 2 then some (t - prev.getD 0)
  else prev

/-- What one round of the bipartite statistics path observes: the current
simulated time, for each receiver the number of memory positions matching
its edge tag (functions.py 103-111; `0` means the qubit was lost), and the
fidelity value the quantum substrate would report for the collected qubits
(the `fidelity` call at line 122 is an external primitive, so its value is
an oracle input).  The source is assumed to hold one qubit at position `0`
(code comment, lines 98-99).  In the networks built by
`create_bipartite_network` each edge of the source has a distinct target,
so `len(edges) = len(recievers) = recv.length`. -/
structure BpInput where
  t : ℚ
  recv : List ℕ
  fid : ℚ

/-- Per-round outputs: the rate log line and, when `run >= 250`, the
attempted final row (functions.py 154-161).  Building the Python list
`data` evaluates `min_time/mean_time` first, so a division error aborts
the round before any row is written and before `sim_stop()`. -/
structure RoundOut where
  log : RateLog
  action : Option (Except String ResultRow)

/-- The `run >= 250` termination check (functions.py 154-161). -/
def emitRow (s : StatState) : Option (Except String ResultRow) :=
  if 250 ≤ s.run then
    some (match pyDivOpt s.minTime s.meanTime with
      | .error e => .error e
      | .ok r => .ok ⟨s.run, s.meanFid, s.lossRate, s.minTime, s.meanTime, r⟩)
  else none

/-- One round of `fidelity_from_node` on a bipartite network
(functions.py 73-163, with `is_multipartite` false).  The number of
collected qubits is `1 + recv.sum` (source plus matched receiver
positions) and the round is counted exactly when it exceeds the edge count
by one (line 115); otherwise only the warning branch runs and none of
`vals`, `mean_fidelity`, `loss_rate`, `mean_time` change. -/
def statsStepBip (s : StatState) (inp : BpInput) : StatState × RoundOut :=
  let minT := minTimeUpd s.run s.minTime inp.t
  let run' := s.run + 1
  let lost' := s.lostQubits + (inp.recv.filter (· == 0)).length
  let lq : ℕ := 1 + inp.recv.sum
  let le : ℕ := inp.recv.length
  if (lq : ℤ) - (le : ℤ) ≠ 1 then
    let s' := { s with run := run', lostQubits := lost', minTime := minT }
    (s', ⟨.skip, emitRow s'⟩)
  else
    let vals' := s.vals ++ [inp.fid]
    let rateRes := rateStep s.rateVals inp.t
    let s' : StatState :=
      { run := run', lostQubits := lost', vals := vals'
        meanFid := some (npMean vals')
        lossRate := some ((lost' : ℚ) / ((run' : ℚ) * ((le : ℚ) + 1)))
        minTime := minT, rateVals := rateRes.1, meanTime := rateRes.2 }
    (s', ⟨rateLogOf minT rateRes.2, emitRow s'⟩)

/-- What one round of the multipartite statistics path observes: for each
node other than the source, how many used memory positions it has
(functions.py 89-95; `0` means `used_positions == []`, which counts as a
lost qubit). -/
structure MpInput where
  t : ℚ
  counts : List ℕ
  fid : ℚ

/-- One round of `fidelity_from_node` on a multipartite network
(functions.py 73-163 with `is_multipartite` true): nodes with no used
positions increment `lost_qubits`, but since the skip condition at line
115 is conjoined with `not is_multipartite`, the `else` branch always
runs: the fidelity of whatever qubits were collected is computed and the
mean, loss rate and rate generator are updated on every round.
`nR` is `len(recievers)`, the number of `qsource-` subcomponents of the
source node. -/
def statsStepMulti (nR : ℕ) (s : StatState) (inp : MpInput) :
    StatState × RoundOut :=
  let minT := minTimeUpd s.run s.minTime inp.t
  let run' := s.run + 1
  let lost' := s.lostQubits + (inp.counts.filter (· == 0)).length
  let vals' := s.vals ++ [inp.fid]
  let rateRes := rateStep s.rateVals inp.t
  let s' : StatState :=
    { run := run', lostQubits := lost', vals := vals'
      meanFid := some (npMean vals')
      lossRate := some ((lost' : ℚ) / ((run' : ℚ) * ((nR : ℚ) + 1)))
      minTime := minT, rateVals := rateRes.1, meanTime := rateRes.2 }
  (s', ⟨rateLogOf minT rateRes.2, emitRow s'⟩)

/-- A driven execution of the bipartite statistics generator: the
accumulated rows of the output artifact, a raised exception if any, the
rate log lines, and whether `sim_stop()` was called. -/
structure DrvState where
  s : StatState
  rows : List ResultRow
  err : Option String
  logs : List RateLog
  halted : Bool

/-- Advance the driven execution by one round with input `inp`, unless the
simulation has halted or the generator died with an exception. -/
def driveStep (d : DrvState) (inp : BpInput) : DrvState :=
  if d.halted || d.err.isSome then d
  else
    let r := statsStepBip d.s inp
    match r.2.action with
    | none => ⟨r.1, d.rows, none, d.logs ++ [r.2.log], false⟩
    | some (.error e) => ⟨r.1, d.rows, some e, d.logs ++ [r.2.log], false⟩
    | some (.ok row) =>
      ⟨r.1, d.rows ++ [row], none, d.logs ++ [r.2.log], true⟩

/-- Run `k` rounds of the bipartite statistics generator, round `j`
(1-based) receiving input `inp j`. -/
def runBip (inp : ℕ → BpInput) : ℕ → DrvState
  | 0 => ⟨initStats, [], none, [], false⟩
  | k + 1 => driveStep (runBip inp k) (inp (k + 1))

/-! ## The bipartite node protocol (bipartiteprotocol.py)

`BipartiteProtocol.__init__` (lines 48-59) collects the memory's `qin{i}`
ports (one per memory position), removes the bare `qin` port, and splits
them by index parity: odd indices are `input_ports`, even indices are
`source_mem`.  One iteration of `run` (lines 76-137) is embedded as the
sequence of externally visible actions it performs; the `yield`ed wait
expressions are embedded syntactically so that their resolution semantics
can be stated. -/

/-- The odd-indexed `qin` ports, `self.input_ports` (lines 48-52). -/
def inputPorts (memSize : ℕ) : List ℕ :=
  (List.range memSize).filter (· % 2 == 1)

/-- The even-indexed `qin` ports, `self.source_mem` (lines 54-59). -/
def sourceMem (memSize : ℕ) : List ℕ :=
  (List.range memSize).filter (· % 2 == 0)

/-- Syntax of the wait expressions built from `self.await_port_input`
events combined with `operator.and_` / `operator.or_`. -/
inductive WaitExpr where
  | single : ℕ → WaitExpr
  | and : WaitExpr → WaitExpr → WaitExpr
  | or : WaitExpr → WaitExpr → WaitExpr
deriving DecidableEq

/-- Whether a wait expression has resolved, given which memory slots have
received a qubit: a single-port wait resolves when its slot has received,
`and` requires both sides, `or` either side. -/
def WaitExpr.resolved (occ : ℕ → Bool) : WaitExpr → Bool
  | .single s => occ s
  | .and a b => a.resolved occ && b.resolved occ
  | .or a b => a.resolved occ || b.resolved occ

/-- Embedding of `functools.reduce(f, l)` for a nonempty list `l` (Python raises
`TypeError` on an empty list; the `WaitExpr.single 0` result for `[]` is
never used, since a node of the built networks has `degree ≥ 1` and hence
`memSize = 2 · degree ≥ 2`). -/
def reduce1 (f : WaitExpr → WaitExpr → WaitExpr) : List WaitExpr → WaitExpr
  | [] => .single 0
  | x :: xs => xs.foldl f x

/-- The AND barrier a source node yields on (line 96-100):
`reduce(operator.and_, [await_port_input(qmemory.ports[p]) for p in source_mem])`. -/
def andBarrier (memSize : ℕ) : WaitExpr :=
  reduce1 .and ((sourceMem memSize).map .single)

/-- The OR barrier a receiver node yields on (lines 123-130):
`reduce(operator.or_, [await_port_input(qmemory.ports[p]) for p in input_ports])`. -/
def orBarrier (memSize : ℕ) : WaitExpr :=
  reduce1 .or ((inputPorts memSize).map .single)

/-- The externally visible actions of one protocol-round iteration. -/
inductive Event where
  | trigger : ℕ → Event
  | waitBarrier : WaitExpr → Event
  | fuse : List ℕ → Event
  | report : ℚ → Event
deriving DecidableEq

/-- One iteration of `BipartiteProtocol.run` on a source node
(lines 86-119), as the sequence of actions performed: trigger the
`qsource-` subcomponent of every outgoing edge, suspend on the AND barrier
over all of `source_mem`, execute the `CreateGHZ` fusion program on the
even-indexed used positions, and send the `SUCCESS` signal carrying the
round's fidelity (an oracle value, as the `fidelity` call is an external
primitive over the used positions' qubits). -/
def sourceRound (edges : List ℕ) (memSize : ℕ) (used : List ℕ) (fid : ℚ) :
    List Event :=
  edges.map .trigger
    ++ [.waitBarrier (andBarrier memSize),
        .fuse (used.filter (· % 2 == 0)),
        .report fid]

/-- One iteration of `BipartiteProtocol.run` on a receiver node
(lines 121-137): suspend on the OR barrier over `input_ports`; the rest of
the branch only logs. -/
def receiverRound (memSize : ℕ) : List Event :=
  [.waitBarrier (orBarrier memSize)]

/-! ## The bipartite network builder (bipartite_network.py) -/

/-- The input graph: node identifiers with an ordered weighted adjacency
list per node (`graph.edges[node]` iterated in insertion order).  Node
identifiers are modelled as naturals; the code turns them into strings
only to name NetSquid components. -/
structure WGraph where
  nodes : List ℕ
  adj : ℕ → List (ℕ × ℚ)

/-- Embedding of `len(node_connections)`, the number of outgoing edges of a node. -/
def degree (g : WGraph) (u : ℕ) : ℕ := (g.adj u).length

/-- Embedding of `mem_size = len(node_connections) * 2` (bipartite_network.py 78):
the number of positions of the node's `QuantumProcessor`. -/
def mem_size (g : WGraph) (u : ℕ) : ℕ := 2 * degree g u

/-- The successive values of a `mem_position` counter that starts at
`start` and advances by 2 for each of `n` edges
(bipartite_network.py 104/157 and 163/176). -/
def allocSlots : ℕ → ℕ → List ℕ
  | _, 0 => []
  | start, n + 1 => start :: allocSlots (start + 2) n

/-- The memory positions that receive the local (`qout1`) output of the
node's own sources, in edge order: `mem_position` starts at 0 and
advances by 2 per edge (bipartite_network.py 104-157). -/
def localSlots (g : WGraph) (u : ℕ) : List ℕ := allocSlots 0 (degree g u)

/-- Each outgoing edge of `u` paired with the memory position of `u` into
which the edge's source wires its retained qubit
(`qsource.ports["qout1"].connect(qmemory.ports[f"qin{mem_position}"])`). -/
def localWiring (g : WGraph) (u : ℕ) : List ((ℕ × ℚ) × ℕ) :=
  (g.adj u).zip (localSlots g u)

/-- The incoming edges of `v`, in the order their `in-` ports were created
on `v` (the builder's second loop processes nodes in order and each node's
edges in order). -/
def inEdges (g : WGraph) (v : ℕ) : List ℕ :=
  g.nodes.flatMap (fun u => ((g.adj u).filter (fun p => p.1 == v)).map (fun _ => u))

/-- The memory positions to which `v`'s incoming channel ports forward
delivered qubits: `mem_position` starts at 1 and advances by 2 per `in-`
port (bipartite_network.py 161-176). -/
def deliverySlots (g : WGraph) (v : ℕ) : List ℕ :=
  allocSlots 1 (inEdges g v).length

/-- Each incoming edge of `v` paired with the memory position of `v` to
which the channel's delivered qubit is forwarded
(`port.forward_input(qmemory.ports[f"qin{mem_position}"])`). -/
def deliveryWiring (g : WGraph) (v : ℕ) : List (ℕ × ℕ) :=
  (inEdges g v).zip (deliverySlots g v)

/-! ## Helper lemmas -/

section BarrierLemmas

lemma foldl_and_resolved (ws : List WaitExpr) :
    ∀ (acc : WaitExpr) (occ : ℕ → Bool),
      ((ws.foldl WaitExpr.and acc).resolved occ)
        = (acc.resolved occ && ws.all (fun w => w.resolved occ)) := by
  induction ws with
  | nil => intro acc occ; simp
  | cons w rest ih =>
    intro acc occ
    rw [List.foldl_cons, ih]
    simp [WaitExpr.resolved, Bool.and_assoc]

lemma foldl_or_resolved (ws : List WaitExpr) :
    ∀ (acc : WaitExpr) (occ : ℕ → Bool),
      ((ws.foldl WaitExpr.or acc).resolved occ)
        = (acc.resolved occ || ws.any (fun w => w.resolved occ)) := by
  induction ws with
  | nil => intro acc occ; simp
  | cons w rest ih =>
    intro acc occ
    rw [List.foldl_cons, ih]
    simp [WaitExpr.resolved, Bool.or_assoc]

lemma all_map_single (l : List ℕ) (occ : ℕ → Bool) :
    ((l.map WaitExpr.single).all fun w => w.resolved occ) = l.all occ := by
  induction l with
  | nil => rfl
  | cons a r ih => simp only [List.map_cons, List.all_cons, ih]; rfl

lemma any_map_single (l : List ℕ) (occ : ℕ → Bool) :
    ((l.map WaitExpr.single).any fun w => w.resolved occ) = l.any occ := by
  induction l with
  | nil => rfl
  | cons a r ih => simp only [List.map_cons, List.any_cons, ih]; rfl

lemma reduce1_and_resolved (l : List ℕ) (occ : ℕ → Bool) (h : l ≠ []) :
    (reduce1 .and (l.map .single)).resolved occ = l.all occ := by
  cases l with
  | nil => exact absurd rfl h
  | cons s rest =>
    simp only [List.map_cons, reduce1, foldl_and_resolved,
      all_map_single, List.all_cons]
    rfl

lemma reduce1_or_resolved (l : List ℕ) (occ : ℕ → Bool) (h : l ≠ []) :
    (reduce1 .or (l.map .single)).resolved occ = l.any occ := by
  cases l with
  | nil => exact absurd rfl h
  | cons s rest =>
    simp only [List.map_cons, reduce1, foldl_or_resolved,
      any_map_single, List.any_cons]
    rfl

lemma range_filter_even (d : ℕ) :
    (List.range (2 * d)).filter (· % 2 == 0)
      = (List.range d).map (fun j => 2 * j) := by
  induction d with
  | zero => rfl
  | succ n ih =>
    have h2 : 2 * (n + 1) = (2 * n) + 1 + 1 := by ring
    rw [h2, List.range_succ, List.range_succ, List.filter_append,
      List.filter_append, ih, List.range_succ, List.map_append]
    simp [Nat.mul_succ, Nat.add_mod, Nat.mul_mod_right]

lemma range_filter_odd (d : ℕ) :
    (List.range (2 * d)).filter (· % 2 == 1)
      = (List.range d).map (fun j => 2 * j + 1) := by
  induction d with
  | zero => rfl
  | succ n ih =>
    have h2 : 2 * (n + 1) = (2 * n) + 1 + 1 := by ring
    rw [h2, List.range_succ, List.range_succ, List.filter_append,
      List.filter_append, ih, List.range_succ, List.map_append]
    simp [Nat.mul_succ, Nat.add_mod, Nat.mul_mod_right]

lemma sourceMem_eq (d : ℕ) :
    sourceMem (2 * d) = (List.range d).map (fun j => 2 * j) := by
  rw [sourceMem, range_filter_even]

lemma inputPorts_eq (d : ℕ) :
    inputPorts (2 * d) = (List.range d).map (fun j => 2 * j + 1) := by
  rw [inputPorts, range_filter_odd]

end BarrierLemmas

section AllocLemmas

lemma allocSlots_eq (n : ℕ) : ∀ s : ℕ,
    allocSlots s n = (List.range n).map (fun j => s + 2 * j) := by
  induction n with
  | zero => intro s; rfl
  | succ m ih =>
    intro s
    rw [allocSlots, ih (s + 2), List.range_succ_eq_map, List.map_cons,
      List.map_map]
    refine congrArg₂ _ (by omega) (List.map_congr_left ?_)
    intro j _
    simp [Function.comp]
    omega

lemma allocSlots_length (n : ℕ) : ∀ s : ℕ, (allocSlots s n).length = n := by
  induction n with
  | zero => intro s; rfl
  | succ m ih => intro s; rw [allocSlots, List.length_cons, ih]

end AllocLemmas

section DiffsLemmas

lemma diffs_cons_sum (l : List ℚ) : ∀ a : ℚ,
    (diffs (a :: l)).sum = l.getLastD a - a := by
  induction l with
  | nil => intro a; simp [diffs]
  | cons b rest ih =>
    intro a
    rw [diffs, List.sum_cons, ih b, List.getLastD_cons]
    ring

lemma diffs_length (l : List ℚ) : (diffs l).length = l.length - 1 := by
  induction l with
  | nil => rfl
  | cons a rest ih =>
    cases rest with
    | nil => rfl
    | cons b r2 =>
      rw [diffs, List.length_cons, ih]
      simp

lemma meanDiff_eq (l : List ℚ) (h : 2 ≤ l.length) :
    meanDiff l
      = (l.getLastD 0 - l.headD 0) / ((l.length : ℚ) - 1) := by
  cases l with
  | nil => simp at h
  | cons a rest =>
    rw [meanDiff, npMean, diffs_cons_sum rest a, diffs_length]
    have hlen : (a :: rest).length - 1 = rest.length := by simp
    rw [hlen, List.getLastD_cons, List.headD_cons, List.length_cons]
    have hc : ((rest.length + 1 : ℕ) : ℚ) - 1 = (rest.length : ℚ) := by
      push_cast; ring
    rw [hc]

lemma rateYieldsAux_getD (rest : List ℚ) : ∀ (v : List ℚ), v ≠ [] →
    ∀ j : ℕ, j < rest.length →
      (rateYieldsAux v rest).getD j none
        = some (meanDiff (v ++ rest.take (j + 1))) := by
  induction rest with
  | nil => intro v _ j hj; simp at hj
  | cons t rest2 ih =>
    intro v hv j hj
    have hstep : rateStep v t = (v ++ [t], some (meanDiff (v ++ [t]))) := by
      cases v with
      | nil => exact absurd rfl hv
      | cons a vr => rfl
    rw [rateYieldsAux, hstep]
    cases j with
    | zero => simp
    | succ j2 =>
      simp only [List.getD_cons_succ]
      rw [ih (v ++ [t]) (by simp) j2 (by simpa using hj)]
      simp [List.take_succ_cons, List.append_assoc]

lemma getD_irrel (l : List ℚ) (j : ℕ) (hj : j < l.length) (d d' : ℚ) :
    l.getD j d = l.getD j d' := by
  induction l generalizing j with
  | nil => simp at hj
  | cons a rest ih =>
    cases j with
    | zero => rfl
    | succ j2 =>
      rw [List.getD_cons_succ, List.getD_cons_succ]
      exact ih j2 (by simpa using hj)

lemma take_getLastD (m : List ℚ) : ∀ (j : ℕ), j < m.length → ∀ d : ℚ,
    (m.take (j + 1)).getLastD d = m.getD j d := by
  induction m with
  | nil => intro j hj; simp at hj
  | cons a rest ih =>
    intro j hj d
    cases j with
    | zero => simp [List.getLastD_cons]
    | succ j2 =>
      rw [List.take_succ_cons, List.getLastD_cons, List.getD_cons_succ]
      have hj2 : j2 < rest.length := by simpa using hj
      rw [ih j2 hj2 a]
      exact getD_irrel rest j2 hj2 a d

end DiffsLemmas

/-! ## Claim theorems -/

/-- Claim C8: for every `n ≥ 1`, `gen_GHZ_ket n` is the `2 ^ n`-dimensional
vector with entries `1/√2` at index `0` and at index `2 ^ n - 1`, zero
everywhere else, and its squared norm is exactly `1`. -/
theorem claim_C8 (n : ℕ) (h : 1 ≤ n) :
    gen_GHZ_ket n 0 = 1 / Real.sqrt 2
    ∧ gen_GHZ_ket n (2 ^ n - 1) = 1 / Real.sqrt 2
    ∧ (∀ i : ℕ, i ≠ 0 → i ≠ 2 ^ n - 1 → gen_GHZ_ket n i = 0)
    ∧ ghzNormSq n = 1 := by
  have h2 : 2 ≤ 2 ^ n := by
    calc 2 = 2 ^ 1 := by norm_num
    _ ≤ 2 ^ n := Nat.pow_le_pow_right (by norm_num) h
  refine ⟨by simp [gen_GHZ_ket], by simp [gen_GHZ_ket], ?_, ?_⟩
  · intro i h0 h1
    simp [gen_GHZ_ket, h0, h1]
  · have hsq : Real.sqrt 2 ^ 2 = 2 := Real.sq_sqrt (by norm_num)
    have hstep : ghzNormSq n
        = ∑ i in Finset.range (2 ^ n),
            (if i = 0 ∨ i = 2 ^ n - 1 then (1 : ℝ) / 2 else 0) := by
      refine Finset.sum_congr rfl ?_
      intro i _
      rw [gen_GHZ_ket]
      by_cases hc : i = 0 ∨ i = 2 ^ n - 1
      · rw [if_pos hc, if_pos hc, div_pow, one_pow, hsq]
      · rw [if_neg hc, if_neg hc]
        simp
    have hfilter : (Finset.range (2 ^ n)).filter
        (fun i => i = 0 ∨ i = 2 ^ n - 1) = {0, 2 ^ n - 1} := by
      ext i
      simp only [Finset.mem_filter, Finset.mem_range, Finset.mem_insert,
        Finset.mem_singleton]
      constructor
      · rintro ⟨_, hi⟩; exact hi
      · rintro (rfl | rfl)
        · exact ⟨by omega, Or.inl rfl⟩
        · exact ⟨by omega, Or.inr rfl⟩
    have hcard : ((Finset.range (2 ^ n)).filter
        (fun i => i = 0 ∨ i = 2 ^ n - 1)).card = 2 := by
      rw [hfilter]
      rw [Finset.card_insert_of_not_mem (by simp; omega)]
      simp
    rw [hstep, ← Finset.sum_filter, Finset.sum_const, hcard]
    norm_num

/-- Claim C4: appending a fidelity to a nonempty history updates the
code's per-round mean (`np.mean` over the full history, `npMean`) exactly
by the spec's incremental formula
`mean + (fidelity - mean) / run_count`, and the incremental fold
(`incMean`) coincides with the plain arithmetic mean; moreover that is
precisely the `mean_fidelity` the engine stores after a counted round. -/
theorem claim_C4 (l : List ℚ) (f : ℚ) (h : l ≠ []) :
    (∀ (s : StatState) (inp : BpInput), s.vals = l →
        (1 + (inp.recv.sum : ℤ)) - (inp.recv.length : ℤ) = 1 →
        ((statsStepBip s inp).1).meanFid = some (npMean (l ++ [inp.fid])))
    ∧ npMean (l ++ [f]) = npMean l + (f - npMean l) / ((l.length : ℚ) + 1)
    ∧ incMean (l ++ [f]) = npMean (l ++ [f]) := by
  refine ⟨?_, npMean_append l f h, incMean_eq_npMean _ (by simp)⟩
  intro s inp hv hc
  simp only [statsStepBip]
  split
  · omega
  · simp [hv]

/-- Witness for C8 at the concrete input `n = 1`. -/
theorem claim_C8_witness :
    1 ≤ 1
    ∧ (gen_GHZ_ket 1 0 = 1 / Real.sqrt 2
      ∧ gen_GHZ_ket 1 (2 ^ 1 - 1) = 1 / Real.sqrt 2
      ∧ (∀ i : ℕ, i ≠ 0 → i ≠ 2 ^ 1 - 1 → gen_GHZ_ket 1 i = 0)
      ∧ ghzNormSq 1 = 1) :=
  ⟨by decide, claim_C8 1 (by decide)⟩

/-- Witness for C4 at the concrete history `[1/2]` and fidelity `3/4`. -/
theorem claim_C4_witness :
    ([(1 : ℚ)/2] ≠ []
    ∧ npMean ([(1 : ℚ)/2] ++ [3/4])
        = npMean [(1 : ℚ)/2]
          + (3/4 - npMean [(1 : ℚ)/2]) / ((([(1 : ℚ)/2]).length : ℚ) + 1)
    ∧ incMean ([(1 : ℚ)/2] ++ [3/4]) = npMean ([(1 : ℚ)/2] ++ [3/4])) :=
  ⟨by decide, (claim_C4 [(1 : ℚ)/2] (3/4) (by decide)).2.1,
    (claim_C4 [(1 : ℚ)/2] (3/4) (by decide)).2.2⟩

/-- Claim C9: on every counted round of the bipartite statistics path, the
stored `loss_rate` equals `lost_qubit_count / (run_count × (receivers + 1))`,
with the post-round values of the lost counter and the round counter. -/
theorem claim_C9 (s : StatState) (inp : BpInput)
    (h : ((1 + inp.recv.sum : ℕ) : ℤ) - (inp.recv.length : ℤ) = 1) :
    ((statsStepBip s inp).1).lossRate
      = some ((((statsStepBip s inp).1).lostQubits : ℚ)
          / ((((statsStepBip s inp).1).run : ℚ) * ((inp.recv.length : ℚ) + 1))) := by
  simp only [statsStepBip]
  split
  · omega
  · push_cast
    simp

/-- Witness for C9 at a concrete counted round. -/
theorem claim_C9_witness :
    ((1 + ([1] : List ℕ).sum : ℕ) : ℤ) - (([1] : List ℕ).length : ℤ) = 1
    ∧ ((statsStepBip initStats ⟨0, [1], 1⟩).1).lossRate
        = some ((((statsStepBip initStats ⟨0, [1], 1⟩).1).lostQubits : ℚ)
            / ((((statsStepBip initStats ⟨0, [1], 1⟩).1).run : ℚ)
                * ((([1] : List ℕ).length : ℚ) + 1))) :=
  ⟨by decide, claim_C9 initStats ⟨0, [1], 1⟩ (by decide)⟩

/-- Claim C3, counterexample: in the multipartite statistics path, a round
that collects 2 qubits (source plus one of two receivers) while the
expected participant count is 3 records the loss — but does not skip the
fidelity computation: `mean_fidelity` changes from `None` to the round's
fidelity, contradicting the claim for the multipartite path. -/
theorem claim_C3_counterexample :
    (1 + ([0, 1] : List ℕ).sum = 2) ∧ (2 ≠ 2 + 1)
    ∧ ((statsStepMulti 2 initStats ⟨0, [0, 1], 1/2⟩).1).lostQubits = 1
    ∧ initStats.meanFid = none
    ∧ ((statsStepMulti 2 initStats ⟨0, [0, 1], 1/2⟩).1).meanFid = some (1/2)
    ∧ ((statsStepMulti 2 initStats ⟨0, [0, 1], 1/2⟩).1).vals = [1/2] := by
  refine ⟨by decide, by decide, ?_, rfl, ?_, ?_⟩
  · simp [statsStepMulti, initStats]
  · simp [statsStepMulti, initStats, npMean]
  · simp [statsStepMulti, initStats]

/-- Claim C3, amended: in the bipartite path a round whose collected-qubit
count does not exceed the edge count by one skips the fidelity
computation, leaving `vals`, `mean_fidelity` and `loss_rate` unchanged
while incrementing the lost counter once per receiver with no matching
qubit; in the multipartite path missing nodes increment the lost counter
but fidelity is still computed over the qubits actually collected and
`mean_fidelity` is updated on every round. -/
theorem claim_C3_amended :
    (∀ (s : StatState) (inp : BpInput),
        ((1 + inp.recv.sum : ℕ) : ℤ) - (inp.recv.length : ℤ) ≠ 1 →
        ((statsStepBip s inp).1).vals = s.vals
        ∧ ((statsStepBip s inp).1).meanFid = s.meanFid
        ∧ ((statsStepBip s inp).1).lossRate = s.lossRate
        ∧ ((statsStepBip s inp).1).lostQubits
            = s.lostQubits + (inp.recv.filter (· == 0)).length)
    ∧ (∀ (nR : ℕ) (s : StatState) (inp : MpInput),
        ((statsStepMulti nR s inp).1).vals = s.vals ++ [inp.fid]
        ∧ ((statsStepMulti nR s inp).1).meanFid
            = some (npMean (s.vals ++ [inp.fid]))
        ∧ ((statsStepMulti nR s inp).1).lostQubits
            = s.lostQubits + (inp.counts.filter (· == 0)).length) := by
  constructor
  · intro s inp hc
    simp only [statsStepBip]
    split
    · simp
    · omega
  · intro nR s inp
    simp [statsStepMulti]

/-- Witness for the amended C3 at concrete rounds of each path. -/
theorem claim_C3_amended_witness :
    ((1 + ([0] : List ℕ).sum : ℕ) : ℤ) - (([0] : List ℕ).length : ℤ) ≠ 1
    ∧ ((statsStepBip initStats ⟨0, [0], 1⟩).1).vals = initStats.vals
    ∧ ((statsStepMulti 1 initStats ⟨0, [0], 1⟩).1).vals
        = initStats.vals ++ [1] :=
  ⟨by decide, (claim_C3_amended.1 initStats ⟨0, [0], 1⟩ (by decide)).1,
    (claim_C3_amended.2 1 initStats ⟨0, [0], 1⟩).1⟩

/-- Claim C1: a source-node protocol round performs, in order, one
generation trigger per outgoing edge, then a single suspension on a
conjunctive barrier whose wait expression resolves exactly when every
even-indexed memory slot has received a qubit (never on a partial
delivery), and only then the fusion step and the fidelity report.  For a
node of degree `d` the memory has `2 * d` positions and the barrier covers
the `d` even-indexed slots, one per outgoing edge. -/
theorem claim_C1 (edges : List ℕ) (d : ℕ) (used : List ℕ) (fid : ℚ)
    (hlen : edges.length = d) (hd : 1 ≤ d) :
    sourceRound edges (2 * d) used fid
      = edges.map Event.trigger
        ++ [Event.waitBarrier (andBarrier (2 * d)),
            Event.fuse (used.filter (· % 2 == 0)), Event.report fid]
    ∧ sourceMem (2 * d) = (List.range d).map (fun j => 2 * j)
    ∧ (sourceMem (2 * d)).length = d
    ∧ (∀ occ : ℕ → Bool,
        (andBarrier (2 * d)).resolved occ = (sourceMem (2 * d)).all occ)
    ∧ (∀ occ : ℕ → Bool, ∀ s ∈ sourceMem (2 * d), occ s = false →
        (andBarrier (2 * d)).resolved occ = false) := by
  have hmem : sourceMem (2 * d) = (List.range d).map (fun j => 2 * j) :=
    sourceMem_eq d
  have hne : sourceMem (2 * d) ≠ [] := by
    rw [hmem]
    intro he
    have := congrArg List.length he
    simp at this
    omega
  have hres : ∀ occ : ℕ → Bool,
      (andBarrier (2 * d)).resolved occ = (sourceMem (2 * d)).all occ :=
    fun occ => reduce1_and_resolved _ occ hne
  refine ⟨rfl, hmem, by rw [hmem]; simp, hres, ?_⟩
  intro occ s hs hocc
  rw [hres occ]
  rw [List.all_eq_false]
  exact ⟨s, hs, by simp [hocc]⟩

/-- Witness for C1: a degree-1 source node with one outgoing edge. -/
theorem claim_C1_witness :
    ([5].length = 1 ∧ 1 ≤ 1)
    ∧ (sourceRound [5] (2 * 1) [0] 0
        = [5].map Event.trigger
          ++ [Event.waitBarrier (andBarrier (2 * 1)),
              Event.fuse ([0].filter (· % 2 == 0)), Event.report 0]
      ∧ sourceMem (2 * 1) = (List.range 1).map (fun j => 2 * j)
      ∧ (sourceMem (2 * 1)).length = 1
      ∧ (∀ occ : ℕ → Bool,
          (andBarrier (2 * 1)).resolved occ = (sourceMem (2 * 1)).all occ)
      ∧ (∀ occ : ℕ → Bool, ∀ s ∈ sourceMem (2 * 1), occ s = false →
          (andBarrier (2 * 1)).resolved occ = false)) :=
  ⟨⟨by decide, by decide⟩, claim_C1 [5] 1 [0] 0 (by decide) (by decide)⟩

/-- Claim C7: a receiver-node protocol round is a single suspension on a
disjunctive barrier over the node's odd-indexed input slots; the wait
expression resolves as soon as any one of them has received a qubit,
without regard to the remaining input edges. -/
theorem claim_C7 (d : ℕ) (hd : 1 ≤ d) :
    receiverRound (2 * d) = [Event.waitBarrier (orBarrier (2 * d))]
    ∧ inputPorts (2 * d) = (List.range d).map (fun j => 2 * j + 1)
    ∧ (∀ occ : ℕ → Bool,
        (orBarrier (2 * d)).resolved occ = (inputPorts (2 * d)).any occ)
    ∧ (∀ occ : ℕ → Bool, ∀ s ∈ inputPorts (2 * d), occ s = true →
        (orBarrier (2 * d)).resolved occ = true) := by
  have hmem : inputPorts (2 * d) = (List.range d).map (fun j => 2 * j + 1) :=
    inputPorts_eq d
  have hne : inputPorts (2 * d) ≠ [] := by
    rw [hmem]
    intro he
    have := congrArg List.length he
    simp at this
    omega
  have hres : ∀ occ : ℕ → Bool,
      (orBarrier (2 * d)).resolved occ = (inputPorts (2 * d)).any occ :=
    fun occ => reduce1_or_resolved _ occ hne
  refine ⟨rfl, hmem, hres, ?_⟩
  intro occ s hs hocc
  rw [hres occ]
  rw [List.any_eq_true]
  exact ⟨s, hs, hocc⟩

/-- Witness for C7: a receiver with one incoming edge. -/
theorem claim_C7_witness :
    1 ≤ 1
    ∧ (receiverRound (2 * 1) = [Event.waitBarrier (orBarrier (2 * 1))]
      ∧ inputPorts (2 * 1) = (List.range 1).map (fun j => 2 * j + 1)
      ∧ (∀ occ : ℕ → Bool,
          (orBarrier (2 * 1)).resolved occ = (inputPorts (2 * 1)).any occ)
      ∧ (∀ occ : ℕ → Bool, ∀ s ∈ inputPorts (2 * 1), occ s = true →
          (orBarrier (2 * 1)).resolved occ = true)) :=
  ⟨by decide, claim_C7 1 (by decide)⟩

/-- Claim C2: the builder gives every node a memory of `2 × degree`
positions; the local outputs of the node's sources are wired to the even
positions `0, 2, 4, …` (one per outgoing edge, in edge order, each within
the memory), the incoming channels' deliveries are forwarded to the odd
positions `1, 3, 5, …` (one per incoming edge, in port order), and each
allocator advances by exactly 2 per edge, so a slot's role is determined
solely by its index parity. -/
theorem claim_C2 (g : WGraph) (u : ℕ) :
    mem_size g u = 2 * degree g u
    ∧ localSlots g u = (List.range (degree g u)).map (fun j => 2 * j)
    ∧ deliverySlots g u
        = (List.range (inEdges g u).length).map (fun j => 2 * j + 1)
    ∧ (∀ s ∈ localSlots g u, s % 2 = 0 ∧ s < mem_size g u)
    ∧ (∀ s ∈ deliverySlots g u, s % 2 = 1)
    ∧ (localWiring g u).length = degree g u
    ∧ (deliveryWiring g u).length = (inEdges g u).length := by
  have hloc : localSlots g u = (List.range (degree g u)).map (fun j => 2 * j) := by
    rw [localSlots, allocSlots_eq]
    exact List.map_congr_left (fun j _ => by omega)
  have hdel : deliverySlots g u
      = (List.range (inEdges g u).length).map (fun j => 2 * j + 1) := by
    rw [deliverySlots, allocSlots_eq]
    exact List.map_congr_left (fun j _ => by omega)
  refine ⟨rfl, hloc, hdel, ?_, ?_, ?_, ?_⟩
  · intro s hs
    rw [hloc] at hs
    obtain ⟨j, hj, rfl⟩ := List.mem_map.mp hs
    rw [List.mem_range] at hj
    constructor
    · omega
    · rw [mem_size]
      omega
  · intro s hs
    rw [hdel] at hs
    obtain ⟨j, _, rfl⟩ := List.mem_map.mp hs
    omega
  · rw [localWiring, List.length_zip, localSlots, allocSlots_length]
    exact Nat.min_self _
  · rw [deliveryWiring, List.length_zip, deliverySlots, allocSlots_length]
    exact Nat.min_self _

/-- Claim C10, counterexample: with the simulated clock reading `0` when
`fidelity_from_node` creates the rate generator, and the generator then
resumed at times `10` and `11`, the generator yields `None` first (its
body has not run before the first resumption) and then `1`, the mean of
the differences of the recorded times `[10, 11]`.  The claim's formula
`(t_k − t_0)/k` with `t_0 = 0` captured at initialization predicts `10`
(k = 1) or `11/2` (k = 2), neither of which is yielded: the interval
preceding the first round is not part of any smoothed estimate. -/
theorem claim_C10_counterexample :
    rateYields [10, 11] = [none, some 1]
    ∧ ¬((1 : ℚ) = (10 - 0) / 1)
    ∧ ¬((1 : ℚ) = (11 - 0) / 2) := by
  refine ⟨?_, by norm_num, by norm_num⟩
  show [none, some (meanDiff [10, 11])] = [none, some 1]
  have : meanDiff [10, 11] = 1 := by
    show npMean (diffs [10, 11]) = 1
    show npMean [11 - 10] = 1
    simp [npMean]
    norm_num
  rw [this]

/-- Claim C10, amended: the `k`-th value yielded by the rate generator at
resumption `k + 1` is the arithmetic mean of all successive differences of
the times recorded so far, which telescopes to `(t_{k+1} − t_1)/k`, where
`t_1` is the simulated-clock reading at the generator's *first resumption*
(the body does not run at creation, and that first resumption yields no
value). -/
theorem claim_C10_amended (ts : List ℚ) (i : ℕ) (h1 : 1 ≤ i)
    (h2 : i < ts.length) :
    (rateYields ts).getD 0 none = none
    ∧ (rateYields ts).getD i none
        = some ((ts.getD i 0 - ts.getD 0 0) / (i : ℚ)) := by
  cases ts with
  | nil => simp at h2
  | cons t0 rest =>
    have hfirst : rateYields (t0 :: rest)
        = none :: rateYieldsAux [t0] rest := rfl
    constructor
    · rw [hfirst]; rfl
    · obtain ⟨j, rfl⟩ : ∃ j, i = j + 1 := ⟨i - 1, by omega⟩
      have hj : j < rest.length := by
        simp at h2
        omega
      rw [hfirst]
      simp only [List.getD_cons_succ]
      rw [rateYieldsAux_getD rest [t0] (by simp) j hj]
      have hlist : ([t0] ++ rest.take (j + 1)) = t0 :: rest.take (j + 1) := rfl
      have hlen2 : 2 ≤ (t0 :: rest.take (j + 1)).length := by
        simp
        omega
      rw [hlist, meanDiff_eq _ hlen2]
      have htake : (rest.take (j + 1)).getLastD t0 = rest.getD j 0 := by
        rw [take_getLastD rest j hj t0]
        exact getD_irrel rest j hj t0 0
      have htklen : (rest.take (j + 1)).length = j + 1 := by
        rw [List.length_take]
        omega
      have hnum : (t0 :: rest.take (j + 1)).getLastD 0
          - (t0 :: rest.take (j + 1)).headD 0
          = (t0 :: rest).getD (j + 1) 0 - (t0 :: rest).getD 0 0 := by
        rw [List.getLastD_cons, List.headD_cons, htake, List.getD_cons_succ,
          List.getD_cons_zero]
      have hden : ((t0 :: rest.take (j + 1)).length : ℚ) - 1
          = ((j + 1 : ℕ) : ℚ) := by
        rw [List.length_cons, htklen]
        push_cast
        ring
      rw [hnum, hden, List.getD_cons_succ]

/-- Witness for the amended C10 at resume times `[10, 11]`, `i = 1`. -/
theorem claim_C10_amended_witness :
    (1 ≤ 1 ∧ 1 < ([(10 : ℚ), 11]).length)
    ∧ ((rateYields [(10 : ℚ), 11]).getD 0 none = none
      ∧ (rateYields [(10 : ℚ), 11]).getD 1 none
          = some ((([(10 : ℚ), 11]).getD 1 0 - ([(10 : ℚ), 11]).getD 0 0)
              / (1 : ℚ))) :=
  ⟨⟨by decide, by decide⟩, claim_C10_amended [10, 11] 1 (by decide) (by decide)⟩

/-! ## Closed form of a fully-delivered bipartite run

For executions in which every receiver's qubit arrives on every round
(each round counted), the driver state after `k` rounds has a closed
form, proved by induction below and used to settle the behaviour of the
round-250 termination step. -/

/-- The list `[g 1, g 2, …, g k]`. -/
def idxMap (g : ℕ → ℚ) (k : ℕ) : List ℚ :=
  (List.range k).map (fun j => g (j + 1))

/-- The generator's local variables after `k` fully-delivered rounds whose
round-`j` resumption time is `t j` and round-`j` fidelity oracle `f j`. -/
def statsAfter (t f : ℕ → ℚ) (k : ℕ) : StatState :=
  { run := k
    lostQubits := 0
    vals := idxMap f k
    meanFid := if k = 0 then none else some (npMean (idxMap f k))
    lossRate := if k = 0 then none else some 0
    minTime :=
      if k ≤ 1 then none else if k = 2 then some (t 2) else some (t 3 - t 2)
    rateVals := idxMap t k
    meanTime := if k ≤ 1 then none else some (meanDiff (idxMap t k)) }

section ClosedFormLemmas

lemma idxMap_succ (g : ℕ → ℚ) (k : ℕ) :
    idxMap g (k + 1) = idxMap g k ++ [g (k + 1)] := by
  rw [idxMap, List.range_succ, List.map_append]
  rfl

lemma idxMap_length (g : ℕ → ℚ) (k : ℕ) : (idxMap g k).length = k := by
  simp [idxMap]

lemma idxMap_headD (g : ℕ → ℚ) (k : ℕ) (h : 1 ≤ k) :
    (idxMap g k).headD 0 = g 1 := by
  cases k with
  | zero => omega
  | succ m =>
    rw [idxMap, List.range_succ_eq_map]
    rfl

lemma idxMap_getLastD (g : ℕ → ℚ) (k : ℕ) (h : 1 ≤ k) :
    (idxMap g k).getLastD 0 = g k := by
  cases k with
  | zero => omega
  | succ m =>
    rw [idxMap_succ]
    induction (idxMap g m) with
    | nil => rfl
    | cons a rest ih =>
      rw [List.cons_append, List.getLastD_cons]
      cases rest with
      | nil => rfl
      | cons b r2 =>
        rw [List.cons_append, List.getLastD_cons] at ih ⊢
        exact ih

lemma meanDiff_idxMap (g : ℕ → ℚ) (k : ℕ) (h : 2 ≤ k) :
    meanDiff (idxMap g k) = (g k - g 1) / ((k : ℚ) - 1) := by
  rw [meanDiff_eq _ (by rw [idxMap_length]; omega),
    idxMap_getLastD g k (by omega), idxMap_headD g k (by omega),
    idxMap_length]

lemma replicate_one_sum (n : ℕ) : (List.replicate n (1 : ℕ)).sum = n := by
  induction n with
  | zero => rfl
  | succ m ih => rw [List.replicate_succ, List.sum_cons, ih]; omega

lemma replicate_one_filter (n : ℕ) :
    (List.replicate n (1 : ℕ)).filter (· == 0) = [] := by
  induction n with
  | zero => rfl
  | succ m ih => rw [List.replicate_succ, List.filter_cons_of_neg (by decide), ih]

lemma minTimeUpd_statsAfter (t f : ℕ → ℚ) (k : ℕ) :
    minTimeUpd k (statsAfter t f k).minTime (t (k + 1))
      = (statsAfter t f (k + 1)).minTime := by
  match k with
  | 0 => rfl
  | 1 => rfl
  | 2 => simp [minTimeUpd, statsAfter]
  | (m + 3) => simp [minTimeUpd, statsAfter]

lemma rateStep_idxMap (g : ℕ → ℚ) (k : ℕ) :
    rateStep (idxMap g k) (g (k + 1))
      = (idxMap g (k + 1),
          if k = 0 then none else some (meanDiff (idxMap g (k + 1)))) := by
  cases k with
  | zero => rfl
  | succ m =>
    have hcons : ∃ a rest, idxMap g (m + 1) = a :: rest := by
      cases hm : idxMap g (m + 1) with
      | nil =>
        have := idxMap_length g (m + 1)
        rw [hm] at this
        simp at this
      | cons a rest => exact ⟨a, rest, rfl⟩
    obtain ⟨a, rest, hm⟩ := hcons
    rw [hm, rateStep]
    rw [← hm, ← idxMap_succ]
    simp

end ClosedFormLemmas

section ClosedFormRun

lemma statsStepBip_statsAfter_fst (t f : ℕ → ℚ) (nR k : ℕ) :
    (statsStepBip (statsAfter t f k)
        ⟨t (k + 1), List.replicate nR 1, f (k + 1)⟩).1
      = statsAfter t f (k + 1) := by
  have hsum := replicate_one_sum nR
  have hlen : (List.replicate nR (1 : ℕ)).length = nR := by simp
  have hmin := minTimeUpd_statsAfter t f k
  have hrate := rateStep_idxMap t k
  simp only [statsStepBip]
  split
  · omega
  · apply StatState.ext
    · simp [statsAfter]
    · simp [statsAfter, replicate_one_filter]
    · simp only [statsAfter, ← idxMap_succ]
    · simp [statsAfter, ← idxMap_succ]
    · simp [statsAfter, replicate_one_filter]
    · simpa [statsAfter] using hmin
    · simp only [statsAfter, hrate]
    · rw [show (statsAfter t f k).rateVals = idxMap t k from rfl, hrate]
      cases k with
      | zero => simp [statsAfter]
      | succ m => simp [statsAfter]

lemma statsStepBip_action (s : StatState) (inp : BpInput) :
    (statsStepBip s inp).2.action = emitRow ((statsStepBip s inp).1) := by
  simp only [statsStepBip]
  split <;> rfl

lemma statsStepBip_log_counted (s : StatState) (inp : BpInput)
    (h : ((1 + inp.recv.sum : ℕ) : ℤ) - (inp.recv.length : ℤ) = 1) :
    (statsStepBip s inp).2.log
      = rateLogOf ((statsStepBip s inp).1).minTime
          ((statsStepBip s inp).1).meanTime := by
  simp only [statsStepBip]
  split
  · omega
  · rfl

end ClosedFormRun

section ClosedFormRun2

lemma statsAfter_zero (t f : ℕ → ℚ) : statsAfter t f 0 = initStats := by
  apply StatState.ext <;> simp [statsAfter, initStats, idxMap]

lemma counted_replicate (nR : ℕ) (tv fv : ℚ) :
    ((1 + (BpInput.mk tv (List.replicate nR 1) fv).recv.sum : ℕ) : ℤ)
      - ((BpInput.mk tv (List.replicate nR 1) fv).recv.length : ℤ) = 1 := by
  have hsum := replicate_one_sum nR
  have hlen : (List.replicate nR (1 : ℕ)).length = nR := by simp
  simp only [BpInput.mk] at hsum hlen ⊢
  omega

lemma runBip_closed (t f : ℕ → ℚ) (nR : ℕ) :
    ∀ k, k ≤ 249 →
      (runBip (fun j => ⟨t j, List.replicate nR 1, f j⟩) k).s
          = statsAfter t f k
      ∧ (runBip (fun j => ⟨t j, List.replicate nR 1, f j⟩) k).rows = []
      ∧ (runBip (fun j => ⟨t j, List.replicate nR 1, f j⟩) k).err = none
      ∧ (runBip (fun j => ⟨t j, List.replicate nR 1, f j⟩) k).halted = false := by
  intro k
  induction k with
  | zero =>
    intro _
    exact ⟨(statsAfter_zero t f).symm, rfl, rfl, rfl⟩
  | succ m ih =>
    intro hm
    obtain ⟨hs, hrows, herr, hh⟩ := ih (by omega)
    have hrow : emitRow (statsAfter t f (m + 1)) = none := by
      rw [emitRow, if_neg]
      rw [show (statsAfter t f (m + 1)).run = m + 1 from rfl]
      omega
    have hstep := statsStepBip_statsAfter_fst t f nR m
    have hact := statsStepBip_action (statsAfter t f m)
      ⟨t (m + 1), List.replicate nR 1, f (m + 1)⟩
    rw [hstep, hrow] at hact
    rw [runBip, driveStep, hh, herr]
    simp only [Bool.false_or, Option.isSome_none, Bool.or_self, if_neg
      (by simp : ¬(false = true))]
    rw [hs, hact]
    exact ⟨hstep, hrows, rfl, rfl⟩

end ClosedFormRun2

section Round250

lemma statsAfter_250_minTime (t f : ℕ → ℚ) :
    (statsAfter t f 250).minTime = some (t 3 - t 2) := by
  simp [statsAfter]

lemma statsAfter_250_meanTime (t f : ℕ → ℚ) :
    (statsAfter t f 250).meanTime = some ((t 250 - t 1) / 249) := by
  rw [show (statsAfter t f 250).meanTime
      = some (meanDiff (idxMap t 250)) from by simp [statsAfter]]
  rw [meanDiff_idxMap t 250 (by norm_num)]
  norm_num

lemma runBip_unfold_250 (inp : ℕ → BpInput) :
    runBip inp 250 = driveStep (runBip inp 249) (inp 250) := rfl

/-- Round 250 of a fully-delivered run with distinct first and last
resumption times: the division in the final row succeeds, exactly one row
is appended and `sim_stop` is signalled. -/
lemma runBip_250_ok (t f : ℕ → ℚ) (nR : ℕ) (ht : t 1 ≠ t 250) :
    (runBip (fun j => ⟨t j, List.replicate nR 1, f j⟩) 250).halted = true
    ∧ (runBip (fun j => ⟨t j, List.replicate nR 1, f j⟩) 250).rows
        = [⟨250, some (npMean (idxMap f 250)), some 0, some (t 3 - t 2),
            some ((t 250 - t 1) / 249), (t 3 - t 2) / ((t 250 - t 1) / 249)⟩]
    ∧ (runBip (fun j => ⟨t j, List.replicate nR 1, f j⟩) 250).err = none := by
  obtain ⟨hs, hrows, herr, hh⟩ := runBip_closed t f nR 249 (le_refl _)
  have hfst := statsStepBip_statsAfter_fst t f nR 249
  norm_num at hfst
  have hact := statsStepBip_action (statsAfter t f 249)
    (⟨t 250, List.replicate nR 1, f 250⟩ : BpInput)
  rw [hfst] at hact
  have hden : (t 250 - t 1) / 249 ≠ 0 := by
    rw [div_ne_zero_iff]
    exact ⟨sub_ne_zero_of_ne (Ne.symm ht), by norm_num⟩
  have hemit : emitRow (statsAfter t f 250)
      = some (.ok ⟨250, some (npMean (idxMap f 250)), some 0,
          some (t 3 - t 2), some ((t 250 - t 1) / 249),
          (t 3 - t 2) / ((t 250 - t 1) / 249)⟩) := by
    rw [emitRow, if_pos (by simp [statsAfter] : (250 : ℕ) ≤ (statsAfter t f 250).run)]
    rw [statsAfter_250_minTime, statsAfter_250_meanTime, pyDivOpt]
    rw [if_neg hden]
    congr 1
  rw [runBip_unfold_250]
  rw [driveStep, hh, herr]
  simp only [Bool.false_or, Option.isSome_none, if_neg (by simp : ¬(false = true))]
  rw [hs, hact, hemit, hrows]
  exact ⟨rfl, rfl, rfl⟩

/-- Round 250 of a fully-delivered run in which the simulated clock never
advances: the per-round path has been logging the explicit diagnostic,
but the final row's unguarded `min_time/mean_time` raises
`ZeroDivisionError`: no row is written and `sim_stop` is never reached. -/
lemma runBip_250_err (f : ℕ → ℚ) (nR : ℕ) :
    (runBip (fun j => ⟨0, List.replicate nR 1, f j⟩) 250).halted = false
    ∧ (runBip (fun j => ⟨0, List.replicate nR 1, f j⟩) 250).rows = []
    ∧ (runBip (fun j => ⟨0, List.replicate nR 1, f j⟩) 250).err
        = some "ZeroDivisionError"
    ∧ (runBip (fun j => ⟨0, List.replicate nR 1, f j⟩) 250).logs.getLast?
        = some RateLog.diag := by
  have hz : (fun j => (⟨0, List.replicate nR 1, f j⟩ : BpInput))
      = fun j => ⟨(fun _ => (0 : ℚ)) j, List.replicate nR 1, f j⟩ := rfl
  rw [hz]
  obtain ⟨hs, hrows, herr, hh⟩ :=
    runBip_closed (fun _ => (0 : ℚ)) f nR 249 (le_refl _)
  have hfst := statsStepBip_statsAfter_fst (fun _ => (0 : ℚ)) f nR 249
  norm_num at hfst
  have hact := statsStepBip_action (statsAfter (fun _ => (0 : ℚ)) f 249)
    (⟨0, List.replicate nR 1, f 250⟩ : BpInput)
  rw [hfst] at hact
  have hmeanT : (statsAfter (fun _ => (0 : ℚ)) f 250).meanTime = some 0 := by
    rw [statsAfter_250_meanTime]
    norm_num
  have hemit : emitRow (statsAfter (fun _ => (0 : ℚ)) f 250)
      = some (.error "ZeroDivisionError") := by
    rw [emitRow, if_pos (by simp [statsAfter] : (250 : ℕ)
        ≤ (statsAfter (fun _ => (0 : ℚ)) f 250).run)]
    rw [statsAfter_250_minTime, hmeanT, pyDivOpt]
    rw [if_pos rfl]
  have hlog := statsStepBip_log_counted (statsAfter (fun _ => (0 : ℚ)) f 249)
    (⟨0, List.replicate nR 1, f 250⟩ : BpInput) (counted_replicate nR 0 (f 250))
  rw [hfst, statsAfter_250_minTime, hmeanT] at hlog
  have hdiag : rateLogOf (some ((fun _ => (0 : ℚ)) 3 - (fun _ => (0 : ℚ)) 2))
      (some 0) = RateLog.diag := by
    rw [rateLogOf, if_pos rfl]
  rw [hdiag] at hlog
  rw [runBip_unfold_250]
  rw [driveStep, hh, herr]
  simp only [Bool.false_or, Option.isSome_none, if_neg (by simp : ¬(false = true))]
  rw [hs, hact, hemit, hrows, hlog]
  refine ⟨rfl, rfl, rfl, ?_⟩
  exact List.getLast?_concat _

end Round250

/-- Round-fidelity oracle that always reports `1`. -/
def oneFid : ℕ → ℚ := fun _ => 1

/-- Resumption times `0, 10, 15, 16, 17, …`: successive round durations
`10, 5, 1, 1, …`. -/
def ex6t : ℕ → ℚ := fun k => if k ≤ 1 then 0 else if k = 2 then 10 else (k : ℚ) + 12

/-- Strictly increasing resumption times `1, 2, 3, …`. -/
def wTimes : ℕ → ℚ := fun k => (k : ℚ)

/-- Claim C5: the claim says that with zero elapsed simulated time the rate
computation reports a diagnostic and never raises or produces an infinite
rate, including in the final persisted row.  The per-round path indeed
logs the explicit diagnostic (round 250's rate log is `diag`), but the
final row at round 250 computes `min_time/mean_time` unguarded: with every
round resumed at simulated time 0, `mean_time = 0` and the division raises
`ZeroDivisionError`, so no row is written and `sim_stop()` is never
reached — the code contradicts its own per-round guard. -/
theorem claim_C5_final_row_crash :
    (runBip (fun j => ⟨0, List.replicate 1 1, oneFid j⟩) 250).err
        = some "ZeroDivisionError"
    ∧ (runBip (fun j => ⟨0, List.replicate 1 1, oneFid j⟩) 250).rows = []
    ∧ (runBip (fun j => ⟨0, List.replicate 1 1, oneFid j⟩) 250).halted = false
    ∧ (runBip (fun j => ⟨0, List.replicate 1 1, oneFid j⟩) 250).logs.getLast?
        = some RateLog.diag := by
  obtain ⟨hh, hrows, herr, hlog⟩ := runBip_250_err oneFid 1
  exact ⟨herr, hrows, hh, hlog⟩

/-- Claim C6, counterexample: in a fully-delivered run with round durations
`10, 5, 1, 1, …`, the single row persisted at round 250 carries
`min_time = 5` — the elapsed time between the generator's 2nd and 3rd
resumptions — although round 4 lasted only `1`; so the persisted
`min_round_time` field is not the minimum round duration the claim says
it is. -/
theorem claim_C6_counterexample :
    ((runBip (fun j => ⟨ex6t j, List.replicate 1 1, oneFid j⟩) 250).rows.map
        (fun r => r.minTime)) = [some 5]
    ∧ ex6t 3 - ex6t 2 = 5
    ∧ ex6t 4 - ex6t 3 = 1
    ∧ ¬((5 : ℚ) ≤ 1) := by
  have ht : ex6t 1 ≠ ex6t 250 := by norm_num [ex6t]
  obtain ⟨_, hrows, _⟩ := runBip_250_ok ex6t oneFid 1 ht
  refine ⟨?_, by norm_num [ex6t], by norm_num [ex6t], by norm_num⟩
  rw [hrows]
  simp only [List.map_cons, List.map_nil]
  have : ex6t 3 - ex6t 2 = 5 := by norm_num [ex6t]
  rw [this]

/-- Claim C6, amended: when `run_count` reaches 250 in a run where every
round is counted and simulated time has advanced between the first and the
250th round, the engine appends exactly one result row
`(round, mean_fidelity, loss_rate, min_time, mean_time, min_time/mean_time)`
— where `min_time` is the elapsed time between the generator's 2nd and 3rd
resumptions (a single early round duration, not a running minimum) and
`mean_time` the smoothed mean inter-round time — and signals the
simulation clock to halt, so the run halts exactly at round 250 (no row
exists before round 250). -/
theorem claim_C6_amended (t f : ℕ → ℚ) (nR : ℕ) (ht : t 1 ≠ t 250) :
    (runBip (fun j => ⟨t j, List.replicate nR 1, f j⟩) 249).rows = []
    ∧ (runBip (fun j => ⟨t j, List.replicate nR 1, f j⟩) 249).halted = false
    ∧ (runBip (fun j => ⟨t j, List.replicate nR 1, f j⟩) 250).halted = true
    ∧ (runBip (fun j => ⟨t j, List.replicate nR 1, f j⟩) 250).rows
        = [⟨250, some (npMean (idxMap f 250)), some 0, some (t 3 - t 2),
            some ((t 250 - t 1) / 249), (t 3 - t 2) / ((t 250 - t 1) / 249)⟩]
    ∧ (runBip (fun j => ⟨t j, List.replicate nR 1, f j⟩) 250).err = none := by
  obtain ⟨_, h249rows, _, h249h⟩ := runBip_closed t f nR 249 (le_refl _)
  obtain ⟨hh, hrowseq, herr⟩ := runBip_250_ok t f nR ht
  exact ⟨h249rows, h249h, hh, hrowseq, herr⟩

/-- Witness for the amended C6 on the clock `t k = k`. -/
theorem claim_C6_amended_witness :
    (wTimes 1 ≠ wTimes 250)
    ∧ ((runBip (fun j => ⟨wTimes j, List.replicate 1 1, oneFid j⟩) 249).rows = []
      ∧ (runBip (fun j => ⟨wTimes j, List.replicate 1 1, oneFid j⟩) 249).halted
          = false
      ∧ (runBip (fun j => ⟨wTimes j, List.replicate 1 1, oneFid j⟩) 250).halted
          = true
      ∧ (runBip (fun j => ⟨wTimes j, List.replicate 1 1, oneFid j⟩) 250).rows
          = [⟨250, some (npMean (idxMap oneFid 250)), some 0,
              some (wTimes 3 - wTimes 2), some ((wTimes 250 - wTimes 1) / 249),
              (wTimes 3 - wTimes 2) / ((wTimes 250 - wTimes 1) / 249)⟩]
      ∧ (runBip (fun j => ⟨wTimes j, List.replicate 1 1, oneFid j⟩) 250).err
          = none) :=
  ⟨by norm_num [wTimes],
    claim_C6_amended wTimes oneFid 1 (by norm_num [wTimes])⟩
